import Mathlib

/-!
Verification development for the `protocolos` document-template tool
(`src/protocolos.py`).  The program has three core functions:

* `extract_text(file_buffer, extension)` — plain-text extraction from a
  DOCX or PDF buffer,
* `parse_key_values(raw_text)` — parsing `key: value` lines into a dict,
* `fill_template_with_values(template_bytes, values)` together with the
  helper `_replace_in_paragraphs(paragraphs, values)` — substitution of
  `\x7b\x7bkey\x7d\x7d` placeholders in every reachable paragraph of a
  DOCX document.

Strings are modelled as Lean `String` (a structure holding `data : List
Char`); the DOCX object model of python-docx is modelled by the
`Document` structure below, a paragraph being identified with its text
(the code only ever reads and overwrites `paragraph.text`).  Python's
`str.replace` (replace all non-overlapping occurrences, scanning left
to right) is modelled by `replaceAll`.
-/

/-- Python `str.replace(pat, repl)` restricted to a non-empty pattern
`p0 :: pt` (every pattern used by the program is a placeholder
`\x7b\x7bkey\x7d\x7d`, which is never empty): scan left to right; at each
position replace the leftmost occurrence of the pattern, emit the
replacement and continue after the occurrence, otherwise keep the
character.  The first argument of the recursion is the number of
characters of a just-matched occurrence still to be skipped; structural
recursion on the string keeps the function kernel-reducible
(`replaceAllAux_eq_drop` below recovers the natural `drop`-style
unfolding). -/
def replaceAllAux (p0 : Char) (pt repl : List Char) : Nat → List Char → List Char
  | 0, [] => []
  | 0, c :: rest =>
    if (p0 :: pt).isPrefixOf (c :: rest) then
      repl ++ replaceAllAux p0 pt repl pt.length rest
    else
      c :: replaceAllAux p0 pt repl 0 rest
  | _ + 1, [] => []
  | n + 1, _ :: rest => replaceAllAux p0 pt repl n rest

/-- Python `str.replace` proper: scan from the start (skip counter 0). -/
def replaceAll (p0 : Char) (pt repl s : List Char) : List Char :=
  replaceAllAux p0 pt repl 0 s

/-- Python's substring test `pat in s` (used by the source as
`if placeholder in updated:`): does `pat` occur contiguously in `s`? -/
def containsSub (pat : List Char) : List Char → Bool
  | [] => pat.isEmpty
  | c :: rest => pat.isPrefixOf (c :: rest) || containsSub pat rest

/-- The placeholder `\x7b\x7bkey\x7d\x7d` built from a key, at the
character-list level (Python: `f"\x7b\x7b\x7b\x7b\x7bkey\x7d\x7d\x7d\x7d\x7d"`,
i.e. `"\x7b\x7b" + key + "\x7d\x7d"`). -/
def placeholderL (k : List Char) : List Char :=
  '\x7b' :: '\x7b' :: (k ++ [ '\x7d', '\x7d'])

/-- Python whitespace for `str.strip()` (ASCII part; the program's data
only ever involves spaces and tabs around keys and values). -/
def pyIsSpace (c : Char) : Bool :=
  c = ' ' || c = '\t' || c = '\n' || c = '\r' || c = '\x0b' || c = '\x0c'

/-- Python `str.strip()`: drop leading and trailing whitespace. -/
def pyStrip (s : List Char) : List Char :=
  ((s.dropWhile pyIsSpace).reverse.dropWhile pyIsSpace).reverse

/-- Line-break characters recognised by Python `str.splitlines`
(`\r\n` is additionally treated as a single break by `pySplitlines`). -/
def pyIsLineBreak (c : Char) : Bool :=
  c = '\n' || c = '\r' || c = '\x0b' || c = '\x0c' ||
  c = '\x1c' || c = '\x1d' || c = '\x1e' || c = '\x85' ||
  c = '\u2028' || c = '\u2029'

/-- Python `str.splitlines()`: split at line breaks (treating `\r\n` as a
single break), no trailing empty line for a trailing break. -/
def pySplitlines : List Char → List Char → List (List Char)
  | [], acc => if acc = [] then [] else [acc.reverse]
  | '\r' :: '\n' :: rest, acc => acc.reverse :: pySplitlines rest []
  | c :: rest, acc =>
    if pyIsLineBreak c then acc.reverse :: pySplitlines rest []
    else pySplitlines rest (c :: acc)

/-- Python `cleaned.split(":", 1)` when a colon is present: the part
before the first occurrence of `sep` and the part after it. -/
def splitFirst (sep : Char) : List Char → List Char × List Char
  | [] => ([], [])
  | c :: rest =>
    if c = sep then ([], rest)
    else
      let p := splitFirst sep rest
      (c :: p.1, p.2)

/-- A table cell of the DOCX object model: python-docx `_Cell`, holding
its direct paragraphs. -/
structure Cell where
  paragraphs : List String
deriving DecidableEq

/-- A table row: python-docx `_Row`. -/
structure Row where
  cells : List Cell
deriving DecidableEq

/-- A table: python-docx `Table`. -/
structure Table where
  rows : List Row
deriving DecidableEq

/-- A header or footer part of a section, holding its paragraphs. -/
structure HeaderFooter where
  paragraphs : List String
deriving DecidableEq

/-- A section of the document with its (possibly absent) header and
footer (`section.header` / `section.footer` in python-docx; the code
guards with `if section.header:` / `if section.footer:`). -/
structure DocSection where
  header : Option HeaderFooter
  footer : Option HeaderFooter
deriving DecidableEq

/-- The DOCX object model as used by the program: body paragraphs
(`document.paragraphs`, identified with their text), sections
(`document.sections`) and body tables (`document.tables`). -/
structure Document where
  paragraphs : List String
  sections : List DocSection
  tables : List Table
deriving DecidableEq

/-- python-docx `cell.text`: the cell's paragraph texts joined by a
newline. -/
def cellText (c : Cell) : String :=
  String.intercalate "\n" c.paragraphs

/-- An uploaded byte buffer, modelled by its possible parses: the
document obtained when the bytes are read as DOCX (`none` when the bytes
are not a well-formed DOCX) and the per-page extracted texts when read
as PDF (`page.extract_text()` returning `none` when a page yields no
text, which the code turns into `""`). -/
structure Buffer where
  asDocx : Option Document
  asPdfPages : Option (List (Option String))
deriving DecidableEq

/-- Errors raised by `extract_text`: `ImportError` («python-docx nao esta
instalado» / «PyPDF2 nao esta instalado») when a capability is missing,
`ValueError` («Tipo de arquivo nao suportado») for an unsupported
extension, and a generic read error for a malformed buffer. -/
inductive ExtractError where
  | missingDependency
  | unsupportedFormat
  | readError
deriving DecidableEq

/-- Python `str.lower()` (`extension.lower()` in the source), modelled
characterwise; extensions are ASCII, for which `Char.toLower` agrees with
Python. -/
def pyLower (s : String) : String :=
  ⟨s.data.map Char.toLower⟩

instance {ε α : Type} [DecidableEq ε] [DecidableEq α] :
    DecidableEq (Except ε α) := fun
  | .error e, .error f =>
    if h : e = f then isTrue (by rw [h])
    else isFalse (by intro hc; cases hc; exact h rfl)
  | .error _, .ok _ => isFalse (by intro hc; cases hc)
  | .ok _, .error _ => isFalse (by intro hc; cases hc)
  | .ok a, .ok b =>
    if h : a = b then isTrue (by rw [h])
    else isFalse (by intro hc; cases hc; exact h rfl)

/-- The source's `extract_text(file_buffer, extension)`.  The module-level
`Document` / `PyPDF2` availability checks are modelled by the two
Boolean parameters.  DOCX branch: body paragraph texts, then every table
cell's text row-major, empty strings filtered out (`filter(None, ...)`),
joined by newline.  PDF branch: per-page texts (empty string substituted
for a page without text) joined by newline. -/
def extract_text (docxAvailable pdfAvailable : Bool) (file_buffer : Buffer)
    (extension : String) : Except ExtractError String :=
  let ext := pyLower extension
  if ext = "docx" then
    if !docxAvailable then .error .missingDependency
    else
      match file_buffer.asDocx with
      | none => .error .readError
      | some document =>
        .ok (String.intercalate "\n"
          ((document.paragraphs ++
            (document.tables.flatMap fun table =>
              table.rows.flatMap fun row =>
                row.cells.map cellText)).filter (fun s => !(s == ""))))
  else if ext = "pdf" then
    if !pdfAvailable then .error .missingDependency
    else
      match file_buffer.asPdfPages with
      | none => .error .readError
      | some pages =>
        .ok (String.intercalate "\n" (pages.map (fun text => text.getD "")))
  else .error .unsupportedFormat

/-- The key-to-value insertion of a Python dict (`pairs[key] = value`):
when the key is present its value is updated in place (keeping the key's
insertion position), otherwise the pair is appended. -/
def dictInsert (pairs : List (String × String)) (key value : String) :
    List (String × String) :=
  if pairs.any (fun p => p.1 = key) then
    pairs.map (fun p => if p.1 = key then (key, value) else p)
  else
    pairs ++ [(key, value)]

/-- Python dict lookup `pairs[k]` as an option. -/
def dictGet (pairs : List (String × String)) (key : String) : Option String :=
  (pairs.find? (fun p => p.1 = key)).map Prod.snd

/-- The source's `parse_key_values(raw_text)`: for each line, strip it;
skip it when empty, a `\x23`-comment, or colon-free; otherwise split on the
first colon, strip key and value, and insert when the key is non-empty. -/
def parse_key_values (raw_text : String) : List (String × String) :=
  (pySplitlines raw_text.data []).foldl
    (fun pairs line =>
      let cleaned := pyStrip line
      if cleaned = [] then pairs
      else if cleaned.head? = some '#' then pairs
      else if ':' ∉ cleaned then pairs
      else
        let key := pyStrip (splitFirst ':' cleaned).1
        let value := pyStrip (splitFirst ':' cleaned).2
        if key = [] then pairs
        else dictInsert pairs ⟨key⟩ ⟨value⟩)
    []

/-- The per-paragraph body of the source's `_replace_in_paragraphs`: fold
over the dict items in insertion order; for each `(key, value)`, when the
placeholder occurs in the current text replace all its occurrences by the
value (the final write-back `paragraph.text = updated`, guarded by
`updated != original`, leaves the text equal to `updated` either way). -/
def replace_in_paragraph (values : List (String × String))
    (original : String) : String :=
  values.foldl
    (fun updated kv =>
      if containsSub (placeholderL kv.1.data) updated.data then
        ⟨replaceAll '\x7b' ( '\x7b' :: (kv.1.data ++ [ '\x7d', '\x7d']))
          kv.2.data updated.data⟩
      else updated)
    original

/-- The source's `_replace_in_paragraphs(paragraphs, values)`, acting on
the list of paragraph texts. -/
def replace_in_paragraphs (values : List (String × String))
    (paragraphs : List String) : List String :=
  paragraphs.map (replace_in_paragraph values)

/-- The source's `fill_template_with_values(template_bytes, values)` on
the document object model: substitute in the body paragraphs, in every
section's header and footer paragraphs, and in every table cell's direct
paragraphs. -/
def fill_template_with_values (document : Document)
    (values : List (String × String)) : Document :=
  { paragraphs := replace_in_paragraphs values document.paragraphs
    sections := document.sections.map fun s =>
      { header := s.header.map fun h =>
          ⟨replace_in_paragraphs values h.paragraphs⟩
        footer := s.footer.map fun f =>
          ⟨replace_in_paragraphs values f.paragraphs⟩ }
    tables := document.tables.map fun table =>
      { rows := table.rows.map fun row =>
          { cells := row.cells.map fun cell =>
              ⟨replace_in_paragraphs values cell.paragraphs⟩ } } }

/-- All paragraphs reachable by `fill_template_with_values`, in order:
body paragraphs, every section's header then footer paragraphs, every
table cell's direct paragraphs (row-major). -/
def reachableParagraphs (document : Document) : List String :=
  document.paragraphs
    ++ (document.sections.flatMap fun s =>
          (match s.header with
           | some h => h.paragraphs
           | none => []) ++
          (match s.footer with
           | some f => f.paragraphs
           | none => []))
    ++ (document.tables.flatMap fun table =>
          table.rows.flatMap fun row =>
            row.cells.flatMap fun cell => cell.paragraphs)

/-- Classification of a single line by `parse_key_values`: the key/value
pair the line contributes, or `none` when the line is ignored (blank
line, comment line, colon-free line, or empty trimmed key). -/
def validPair (line : List Char) : Option (String × String) :=
  let cleaned := pyStrip line
  if cleaned = [] then none
  else if cleaned.head? = some '#' then none
  else if ':' ∉ cleaned then none
  else
    let key := pyStrip (splitFirst ':' cleaned).1
    if key = [] then none
    else some (⟨key⟩, ⟨pyStrip (splitFirst ':' cleaned).2⟩)

/-- The key/value pairs of the valid lines of a text, in line order and
without deduplication. -/
def validPairs (raw_text : String) : List (String × String) :=
  (pySplitlines raw_text.data []).filterMap validPair

/-- The loop body of `_replace_in_paragraphs` as a named function (the
fold of `replace_in_paragraph` runs exactly this step). -/
def applyKV (updated : String) (kv : String × String) : String :=
  if containsSub (placeholderL kv.1.data) updated.data then
    ⟨replaceAll '\x7b' ( '\x7b' :: (kv.1.data ++ [ '\x7d', '\x7d']))
      kv.2.data updated.data⟩
  else updated

/-- A mapping for which the order of key application provably does not
matter: pairwise distinct keys, keys and values brace-free, values
non-empty, and no character of a value occurring in any key. -/
def goodMapping (values : List (String × String)) : Prop :=
  (values.map Prod.fst).Nodup ∧
  (∀ kv ∈ values,
    ( '\x7b' ∉ kv.1.data ∧ '\x7d' ∉ kv.1.data) ∧
    (kv.2.data ≠ [] ∧ '\x7b' ∉ kv.2.data ∧ '\x7d' ∉ kv.2.data)) ∧
  (∀ kv ∈ values, ∀ kw ∈ values, ∀ c ∈ kv.2.data, c ∉ kw.1.data)

instance (values : List (String × String)) :
    Decidable (goodMapping values) := by
  unfold goodMapping
  infer_instance

/-- DOCX extraction as worded by the specification: the text of every
paragraph followed by the text of every cell in every table (row-major),
empty strings filtered out, joined by newline. -/
def docxExtractSpec (document : Document) : String :=
  String.intercalate "\n"
    ((document.paragraphs ++
      (document.tables.flatMap fun table =>
        table.rows.flatMap fun row => row.cells.map cellText)).filter
      (fun s => !(s == "")))

/-! Basic computation lemmas for the replacement scanner. -/

theorem replaceAllAux_eq_drop (p0 : Char) (pt repl : List Char) :
    ∀ (s : List Char) (n : Nat),
      replaceAllAux p0 pt repl n s = replaceAllAux p0 pt repl 0 (s.drop n) := by
  intro s
  induction s with
  | nil => intro n; cases n <;> rfl
  | cons c rest ih =>
    intro n
    cases n with
    | zero => rfl
    | succ m => simpa using ih m

theorem replaceAll_cons (p0 : Char) (pt repl : List Char) (c : Char)
    (rest : List Char) :
    replaceAll p0 pt repl (c :: rest) =
      if (p0 :: pt).isPrefixOf (c :: rest) then
        repl ++ replaceAll p0 pt repl (rest.drop pt.length)
      else
        c :: replaceAll p0 pt repl rest := by
  show replaceAllAux p0 pt repl 0 (c :: rest) = _
  by_cases h : (p0 :: pt).isPrefixOf (c :: rest)
  · rw [if_pos h]
    simp only [replaceAllAux, if_pos h]
    rw [replaceAllAux_eq_drop]
    rfl
  · rw [if_neg h]
    simp only [replaceAllAux, if_neg h]
    rfl

theorem isPrefixOf_iff_isPre {l₁ l₂ : List Char} :
    l₁.isPrefixOf l₂ = true ↔ l₁ <+: l₂ := by
  simp

theorem containsSub_iff {pat s : List Char} :
    containsSub pat s = true ↔ pat <:+: s := by
  induction s with
  | nil =>
    simp [containsSub, List.isEmpty_iff]
  | cons c rest ih =>
    rw [List.infix_cons_iff]
    simp [containsSub, ih]

/-- When the pattern does not occur in the string, `replaceAll` is the
identity. -/
theorem replaceAll_eq_self {p0 : Char} {pt repl s : List Char}
    (h : ¬ (p0 :: pt) <:+: s) :
    replaceAll p0 pt repl s = s := by
  induction s with
  | nil => rfl
  | cons c rest ih =>
    rw [List.infix_cons_iff] at h
    push_neg at h
    rw [replaceAll_cons, if_neg (by simpa using h.1), ih h.2]

/-! Structural lemmas about the filler. -/

theorem sections_chunk (values : List (String × String))
    (secs : List DocSection) :
    ((secs.map fun s =>
        ({ header := s.header.map fun h =>
             ⟨replace_in_paragraphs values h.paragraphs⟩,
           footer := s.footer.map fun f =>
             ⟨replace_in_paragraphs values f.paragraphs⟩ } : DocSection)).flatMap
      fun s =>
        (match s.header with
         | some h => h.paragraphs
         | none => []) ++
        (match s.footer with
         | some f => f.paragraphs
         | none => [])) =
    ((secs.flatMap fun s =>
        (match s.header with
         | some h => h.paragraphs
         | none => []) ++
        (match s.footer with
         | some f => f.paragraphs
         | none => [])).map (replace_in_paragraph values)) := by
  induction secs with
  | nil => rfl
  | cons s ss ih =>
    simp only [replace_in_paragraphs] at ih ⊢
    cases hh : s.header <;> cases hf : s.footer <;>
      simp [List.flatMap_cons, List.map_append, hh, hf, ih]

theorem tables_chunk (values : List (String × String)) (tbls : List Table) :
    ((tbls.map fun table =>
        ({ rows := table.rows.map fun row =>
            { cells := row.cells.map fun cell =>
                ⟨replace_in_paragraphs values cell.paragraphs⟩ } } : Table)).flatMap
      fun table => table.rows.flatMap fun row =>
        row.cells.flatMap fun cell => cell.paragraphs) =
    ((tbls.flatMap fun table => table.rows.flatMap fun row =>
        row.cells.flatMap fun cell => cell.paragraphs).map
      (replace_in_paragraph values)) := by
  rw [List.flatMap_map, List.map_flatMap]
  congr 1
  funext table
  rw [List.flatMap_map, List.map_flatMap]
  congr 1
  funext row
  rw [List.flatMap_map, List.map_flatMap]
  rfl

/-- Filling transforms the reachable paragraphs exactly by the
per-paragraph substitution, position by position. -/
theorem reachable_fill (document : Document)
    (values : List (String × String)) :
    reachableParagraphs (fill_template_with_values document values) =
      (reachableParagraphs document).map (replace_in_paragraph values) := by
  simp only [reachableParagraphs, fill_template_with_values, List.map_append]
  rw [sections_chunk, tables_chunk]
  rfl

/-- A paragraph in which no placeholder of the mapping occurs is left
unchanged by the per-paragraph substitution. -/
theorem replace_in_paragraph_of_no_placeholder
    {values : List (String × String)} {t : String}
    (h : ∀ kv ∈ values, ¬ placeholderL kv.1.data <:+: t.data) :
    replace_in_paragraph values t = t := by
  induction values with
  | nil => rfl
  | cons kv values ih =>
    unfold replace_in_paragraph
    rw [List.foldl_cons]
    have hno : ¬ containsSub (placeholderL kv.1.data) t.data = true := by
      rw [containsSub_iff]
      exact h kv (by simp)
    rw [if_neg hno]
    exact ih fun kw hw => h kw (by simp [hw])

/-- Filling with the empty mapping changes nothing. -/
theorem fill_empty_eq_self (document : Document) :
    fill_template_with_values document [] = document := by
  have hpar : ∀ l : List String, replace_in_paragraphs [] l = l := by
    intro l
    unfold replace_in_paragraphs
    apply List.map_id''
    intro t
    rfl
  cases document with
  | mk paras secs tbls =>
    unfold fill_template_with_values
    congr 1
    · exact hpar _
    · apply List.map_id''
      intro s
      cases s with
      | mk hh ff => cases hh <;> cases ff <;> simp [hpar]
    · apply List.map_id''
      intro tb
      cases tb with
      | mk rows =>
        simp only [Table.mk.injEq]
        apply List.map_id''
        intro row
        cases row with
        | mk cells =>
          simp only [Row.mk.injEq]
          apply List.map_id''
          intro cell
          cases cell with
          | mk cps => simp [hpar]

/-! The valid lines of the parser, and dict lemmas. -/

theorem foldl_classified {α β γ : Type} (g : α → Option β) (f : γ → β → γ)
    (step : γ → α → γ)
    (hstep : ∀ acc a, step acc a =
      match g a with
      | none => acc
      | some b => f acc b) :
    ∀ (l : List α) (init : γ),
      l.foldl step init = (l.filterMap g).foldl f init := by
  intro l
  induction l with
  | nil => intro init; rfl
  | cons a l ih =>
    intro init
    rw [List.foldl_cons, List.filterMap_cons, hstep]
    cases hg : g a with
    | none => exact ih init
    | some b =>
      rw [List.foldl_cons]
      exact ih (f init b)

/-- The parser is the fold of dict insertion over the valid lines'
pairs: every ignored line contributes nothing. -/
theorem parse_eq_foldl_validPairs (raw_text : String) :
    parse_key_values raw_text =
      (validPairs raw_text).foldl (fun d p => dictInsert d p.1 p.2) [] := by
  unfold parse_key_values validPairs
  apply foldl_classified
  intro acc line
  unfold validPair
  by_cases h1 : pyStrip line = []
  · simp [h1]
  · by_cases h2 : (pyStrip line).head? = some '#'
    · simp [h1, h2]
    · by_cases h3 : ':' ∈ pyStrip line
      · by_cases h4 : pyStrip (splitFirst ':' (pyStrip line)).1 = []
        · simp [h1, h2, h3, h4]
        · simp [h1, h2, h3, h4]
      · simp [h1, h2, h3]

theorem dictGet_nil (k : String) : dictGet [] k = none := rfl

theorem dictGet_cons (p : String × String) (ps : List (String × String))
    (k : String) :
    dictGet (p :: ps) k = if p.1 = k then some p.2 else dictGet ps k := by
  by_cases h : p.1 = k <;> simp [dictGet, List.find?_cons, h]

theorem dictGet_append (k : String) :
    ∀ (ps qs : List (String × String)),
      dictGet (ps ++ qs) k = (dictGet ps k).or (dictGet qs k) := by
  intro ps qs
  induction ps with
  | nil => simp [dictGet_nil]
  | cons p ps ih =>
    rw [List.cons_append, dictGet_cons, dictGet_cons]
    by_cases h : p.1 = k <;> simp [h, ih]

theorem dictGet_map_replace_self (key value : String) :
    ∀ ps : List (String × String),
      ps.any (fun p => p.1 = key) = true →
      dictGet (ps.map fun p => if p.1 = key then (key, value) else p) key =
        some value := by
  intro ps
  induction ps with
  | nil => intro h; simp at h
  | cons p ps ih =>
    intro h
    rw [List.map_cons]
    by_cases hp : p.1 = key
    · rw [if_pos hp, dictGet_cons]
      simp
    · have h' : ps.any (fun q => q.1 = key) = true := by
        simpa [hp] using h
      rw [if_neg hp, dictGet_cons, if_neg hp]
      exact ih h'

theorem dictGet_map_replace_ne (key value k : String) (hk : ¬ k = key) :
    ∀ ps : List (String × String),
      dictGet (ps.map fun p => if p.1 = key then (key, value) else p) k =
        dictGet ps k := by
  intro ps
  induction ps with
  | nil => rfl
  | cons p ps ih =>
    rw [List.map_cons]
    by_cases hp : p.1 = key
    · have h1 : ¬ ((key, value).1 = k) := fun h => hk (Eq.symm h)
      have h2 : ¬ (p.1 = k) := by
        rw [hp]
        exact fun h => hk (Eq.symm h)
      rw [if_pos hp, dictGet_cons, if_neg h1, dictGet_cons, if_neg h2]
      exact ih
    · rw [if_neg hp, dictGet_cons, dictGet_cons]
      by_cases hpk : p.1 = k
      · rw [if_pos hpk, if_pos hpk]
      · rw [if_neg hpk, if_neg hpk]
        exact ih

/-- Looking a key up after a dict insertion: the inserted key now maps to
the new value, all other keys are unaffected. -/
theorem dictGet_dictInsert (pairs : List (String × String))
    (key value k : String) :
    dictGet (dictInsert pairs key value) k =
      if k = key then some value else dictGet pairs k := by
  unfold dictInsert
  by_cases hmem : pairs.any (fun p => p.1 = key)
  · rw [if_pos hmem]
    by_cases hk : k = key
    · rw [if_pos hk, hk]
      exact dictGet_map_replace_self key value pairs hmem
    · rw [if_neg hk]
      exact dictGet_map_replace_ne key value k hk pairs
  · rw [if_neg hmem, dictGet_append k]
    have hfind : pairs.find? (fun p => p.1 = key) = none := by
      rw [List.find?_eq_none]
      intro p hp hcon
      apply hmem
      rw [List.any_eq_true]
      exact ⟨p, hp, hcon⟩
    have hnone : dictGet pairs key = none := by
      unfold dictGet
      rw [hfind]
      rfl
    by_cases hk : k = key
    · rw [if_pos hk, hk, hnone, Option.none_or, dictGet_cons, if_pos rfl]
    · have hsingle : dictGet [(key, value)] k = none := by
        rw [dictGet_cons]
        rw [if_neg (fun h => hk (Eq.symm h))]
        rfl
      rw [if_neg hk, hsingle, Option.or_none]

/-- Looking a key up in the dict built by folding insertions: the value
of the last inserted pair with that key, else the accumulator's value. -/
theorem dictGet_foldl_dictInsert (k : String) :
    ∀ (ps : List (String × String)) (acc : List (String × String)),
      dictGet (ps.foldl (fun d p => dictInsert d p.1 p.2) acc) k =
        (match ps.reverse.find? (fun p => p.1 = k) with
         | some p => some p.2
         | none => dictGet acc k) := by
  intro ps
  induction ps with
  | nil => intro acc; simp
  | cons p ps ih =>
    intro acc
    rw [List.foldl_cons, ih, List.reverse_cons, List.find?_append]
    cases hfind : ps.reverse.find? (fun q => q.1 = k) with
    | some q => simp
    | none =>
      rw [Option.none_or, dictGet_dictInsert]
      by_cases hk : p.1 = k
      · simp [List.find?_cons, hk]
      · have hk' : ¬ (k = p.1) := fun h => hk (Eq.symm h)
        simp [List.find?_cons, hk, hk']

/-- Lookup in the parser's result is the value of the last valid line
with the given key (`none` when no valid line has that key). -/
theorem dictGet_parse (raw_text : String) (k : String) :
    dictGet (parse_key_values raw_text) k =
      ((validPairs raw_text).reverse.find? (fun p => p.1 = k)).map Prod.snd := by
  rw [parse_eq_foldl_validPairs, dictGet_foldl_dictInsert]
  cases hfind : (validPairs raw_text).reverse.find? (fun p => p.1 = k) with
  | some q => simp
  | none => simp [dictGet_nil]

/-! Placeholder geometry: occurrences of well-formed placeholders
(brace-free keys) cannot overlap, and the scanner walks over foreign
placeholders unchanged. -/

theorem key_eq_of_prefix_close :
    ∀ (a b x : List Char), '\x7d' ∉ a → '\x7d' ∉ b →
      (a ++ [ '\x7d', '\x7d']) <+: x → (b ++ [ '\x7d', '\x7d']) <+: x →
      a = b := by
  intro a
  induction a with
  | nil =>
    intro b x _ hb hpa hpb
    cases b with
    | nil => rfl
    | cons d b' =>
      exfalso
      simp only [List.nil_append] at hpa
      obtain ⟨ta, hta⟩ := hpa
      obtain ⟨t, rfl⟩ : ∃ t, x = '\x7d' :: '\x7d' :: t := ⟨ta, hta.symm⟩
      rw [List.cons_append, List.cons_prefix_cons] at hpb
      exact hb (List.mem_cons.mpr (Or.inl hpb.1.symm))
  | cons c a' ih =>
    intro b x ha hb hpa hpb
    cases b with
    | nil =>
      exfalso
      simp only [List.nil_append] at hpb
      obtain ⟨tb, htb⟩ := hpb
      obtain ⟨t, rfl⟩ : ∃ t, x = '\x7d' :: '\x7d' :: t := ⟨tb, htb.symm⟩
      rw [List.cons_append, List.cons_prefix_cons] at hpa
      exact ha (List.mem_cons.mpr (Or.inl hpa.1.symm))
    | cons d b' =>
      cases x with
      | nil =>
        exfalso
        rw [List.cons_append, List.prefix_nil] at hpa
        exact List.cons_ne_nil _ _ hpa
      | cons e x' =>
        rw [List.cons_append, List.cons_prefix_cons] at hpa
        rw [List.cons_append, List.cons_prefix_cons] at hpb
        have hcd : c = d := by rw [hpa.1, hpb.1]
        have ha' : '\x7d' ∉ a' := fun h => ha (by simp [h])
        have hb' : '\x7d' ∉ b' := fun h => hb (by simp [h])
        rw [hcd, ih b' x' ha' hb' hpa.2 hpb.2]

theorem placeholder_key_unique (k1 k2 x : List Char)
    (h1 : '\x7d' ∉ k1) (h2 : '\x7d' ∉ k2)
    (hp1 : placeholderL k1 <+: x) (hp2 : placeholderL k2 <+: x) :
    k1 = k2 := by
  unfold placeholderL at hp1 hp2
  cases x with
  | nil =>
    rw [List.prefix_nil] at hp1
    exact absurd hp1 (List.cons_ne_nil _ _)
  | cons e x' =>
    rw [List.cons_prefix_cons] at hp1 hp2
    cases x' with
    | nil =>
      rw [List.prefix_nil] at hp1
      exact absurd hp1.2 (List.cons_ne_nil _ _)
    | cons e' x'' =>
      rw [List.cons_prefix_cons] at hp1 hp2
      exact key_eq_of_prefix_close k1 k2 x'' h1 h2 hp1.2.2 hp2.2.2

/-- The scanner does not fire inside a block without opening braces. -/
theorem replaceAll_append_no_open (pt v : List Char) :
    ∀ (w z : List Char), '\x7b' ∉ w →
      replaceAll '\x7b' pt v (w ++ z) = w ++ replaceAll '\x7b' pt v z := by
  intro w
  induction w with
  | nil => intro z _; simp
  | cons a w' ih =>
    intro z h
    have ha : ¬ a = '\x7b' := fun hh => h (by simp [hh])
    rw [List.cons_append, replaceAll_cons]
    have hguard : ¬ ( '\x7b' :: pt).isPrefixOf (a :: (w' ++ z)) = true := by
      rw [isPrefixOf_iff_isPre, List.cons_prefix_cons]
      exact fun hp => ha hp.1.symm
    rw [if_neg hguard, ih z (fun hc => h (List.mem_cons_of_mem _ hc))]
    rfl

/-- The scanner fires exactly on its own placeholder at the head. -/
theorem replaceAll_head_match (k v t : List Char) :
    replaceAll '\x7b' ( '\x7b' :: (k ++ [ '\x7d', '\x7d'])) v
        (placeholderL k ++ t) =
      v ++ replaceAll '\x7b' ( '\x7b' :: (k ++ [ '\x7d', '\x7d'])) v t := by
  have hshape : placeholderL k ++ t =
      '\x7b' :: (( '\x7b' :: (k ++ [ '\x7d', '\x7d'])) ++ t) := rfl
  rw [hshape, replaceAll_cons]
  have hguard : ( '\x7b' :: ( '\x7b' :: (k ++ [ '\x7d', '\x7d']))).isPrefixOf
      ( '\x7b' :: (( '\x7b' :: (k ++ [ '\x7d', '\x7d'])) ++ t)) = true := by
    rw [isPrefixOf_iff_isPre, List.cons_prefix_cons]
    exact ⟨rfl, List.prefix_append _ _⟩
  rw [if_pos hguard, List.drop_left]

/-- The scanner walks over a foreign placeholder without firing. -/
theorem replaceAll_placeholder_append (k1 k2 v2 b : List Char)
    (hne : k1 ≠ k2) (h1o : '\x7b' ∉ k1) (h1c : '\x7d' ∉ k1)
    (h2c : '\x7d' ∉ k2) :
    replaceAll '\x7b' ( '\x7b' :: (k2 ++ [ '\x7d', '\x7d'])) v2
        (placeholderL k1 ++ b) =
      placeholderL k1 ++
        replaceAll '\x7b' ( '\x7b' :: (k2 ++ [ '\x7d', '\x7d'])) v2 b := by
  have hshape1 : placeholderL k1 ++ b =
      '\x7b' :: ( '\x7b' :: ((k1 ++ [ '\x7d', '\x7d']) ++ b)) := rfl
  have hg1 : ¬ ( '\x7b' :: ( '\x7b' :: (k2 ++ [ '\x7d', '\x7d']))).isPrefixOf
      (placeholderL k1 ++ b) = true := by
    rw [isPrefixOf_iff_isPre]
    intro hpre
    exact hne (placeholder_key_unique k1 k2 (placeholderL k1 ++ b) h1c h2c
      (List.prefix_append _ _) hpre)
  have hg2 : ¬ ( '\x7b' :: ( '\x7b' :: (k2 ++ [ '\x7d', '\x7d']))).isPrefixOf
      ( '\x7b' :: ((k1 ++ [ '\x7d', '\x7d']) ++ b)) = true := by
    rw [isPrefixOf_iff_isPre, List.cons_prefix_cons]
    intro hpre
    have h2 := hpre.2
    cases hk1 : k1 with
    | nil =>
      rw [hk1] at h2
      simp only [List.nil_append, List.cons_append] at h2
      rw [List.cons_prefix_cons] at h2
      exact absurd h2.1 (by decide)
    | cons c k1' =>
      rw [hk1] at h2
      simp only [List.cons_append] at h2
      rw [List.cons_prefix_cons] at h2
      exact h1o (by rw [hk1]; simp [h2.1.symm])
  conv_lhs => rw [hshape1]
  rw [replaceAll_cons]
  rw [if_neg (by rw [← hshape1]; exact hg1)]
  rw [replaceAll_cons, if_neg hg2]
  rw [List.append_assoc]
  rw [replaceAll_append_no_open _ _ k1 _ h1o]
  have e4 : replaceAll '\x7b' ( '\x7b' :: (k2 ++ [ '\x7d', '\x7d'])) v2
      ([ '\x7d', '\x7d'] ++ b) =
      '\x7d' :: '\x7d' :: replaceAll '\x7b'
        ( '\x7b' :: (k2 ++ [ '\x7d', '\x7d'])) v2 b := by
    rw [show ([ '\x7d', '\x7d'] ++ b) = '\x7d' :: ( '\x7d' :: b) from rfl]
    rw [replaceAll_cons]
    rw [if_neg (by rw [isPrefixOf_iff_isPre, List.cons_prefix_cons]
                   exact fun hp => absurd hp.1 (by decide))]
    rw [replaceAll_cons]
    rw [if_neg (by rw [isPrefixOf_iff_isPre, List.cons_prefix_cons]
                   exact fun hp => absurd hp.1 (by decide))]
  rw [e4]
  simp [placeholderL, List.append_assoc]

/-- Going backwards through the scanner: a prefix whose characters avoid
the (non-empty) replacement text was already a prefix before the
replacement. -/
theorem prefix_of_prefix_replaceAll (pt2 v2 : List Char) (hv2 : v2 ≠ []) :
    ∀ (n : Nat) (x w : List Char), x.length ≤ n →
      (∀ c ∈ w, c ∉ v2) →
      w <+: replaceAll '\x7b' pt2 v2 x → w <+: x := by
  intro n
  induction n with
  | zero =>
    intro x w hlen _ hpre
    have hx : x = [] := List.length_eq_zero.1 (Nat.le_zero.1 hlen)
    subst hx
    exact hpre
  | succ n ih =>
    intro x w hlen hd hpre
    cases x with
    | nil => exact hpre
    | cons c rest =>
      rw [replaceAll_cons] at hpre
      by_cases hg : ( '\x7b' :: pt2).isPrefixOf (c :: rest) = true
      · rw [if_pos hg] at hpre
        cases w with
        | nil => exact List.nil_prefix
        | cons a w' =>
          exfalso
          cases hv2eq : v2 with
          | nil => exact hv2 hv2eq
          | cons b v2' =>
            rw [hv2eq, List.cons_append, List.cons_prefix_cons] at hpre
            refine hd a (List.mem_cons_self a w') ?_
            rw [hv2eq, hpre.1]
            exact List.mem_cons_self b v2'
      · rw [if_neg hg] at hpre
        cases w with
        | nil => exact List.nil_prefix
        | cons a w' =>
          rw [List.cons_prefix_cons] at hpre ⊢
          refine ⟨hpre.1, ?_⟩
          have hrest : rest.length ≤ n := by simpa using hlen
          exact ih rest w' hrest
            (fun ch hch => hd ch (List.mem_cons_of_mem _ hch)) hpre.2

/-- An occurrence of a pattern starting with an opening brace inside
`w ++ t`, where `w` has no opening brace, lies entirely within `t`. -/
theorem occurrence_past_no_open :
    ∀ (w a z b t : List Char), '\x7b' ∉ w →
      a ++ ( '\x7b' :: z) ++ b = w ++ t →
      ∃ a2, a = w ++ a2 ∧ a2 ++ ( '\x7b' :: z) ++ b = t := by
  intro w
  induction w with
  | nil =>
    intro a z b t _ he
    exact ⟨a, rfl, by simpa using he⟩
  | cons d w' ih =>
    intro a z b t hw he
    cases a with
    | nil =>
      exfalso
      simp only [List.nil_append, List.cons_append] at he
      injection he with h1 _
      exact hw (List.mem_cons.mpr (Or.inl h1))
    | cons e a' =>
      simp only [List.cons_append] at he
      injection he with h1 h2
      obtain ⟨a2, ha2, ht⟩ :=
        ih a' z b t (fun hc => hw (List.mem_cons_of_mem _ hc)) h2
      refine ⟨a2, ?_, ht⟩
      rw [h1, ha2]
      rfl

/-- An occurrence of one well-formed placeholder inside another distinct
well-formed placeholder followed by `t` lies entirely within `t`. -/
theorem infix_drop_placeholder (k k1 t : List Char) (hne : k ≠ k1)
    (hkc : '\x7d' ∉ k) (h1o : '\x7b' ∉ k1) (h1c : '\x7d' ∉ k1)
    (h : placeholderL k <:+: placeholderL k1 ++ t) :
    placeholderL k <:+: t := by
  obtain ⟨a, b, he⟩ := h
  cases a with
  | nil =>
    exfalso
    apply hne
    refine placeholder_key_unique k k1 (placeholderL k1 ++ t) hkc h1c
      ⟨b, by simpa using he⟩ (List.prefix_append _ _)
  | cons x a' =>
    cases a' with
    | nil =>
      exfalso
      have he' : x :: ( '\x7b' :: ( '\x7b' :: ((k ++ [ '\x7d', '\x7d']) ++ b))) =
          '\x7b' :: ( '\x7b' :: ((k1 ++ [ '\x7d', '\x7d']) ++ t)) := he
      injection he' with h1 h2
      injection h2 with h2a h2b
      cases hk1 : k1 with
      | nil =>
        rw [hk1] at h2b
        simp only [List.nil_append, List.cons_append] at h2b
        injection h2b with h3 _
        exact absurd h3 (by decide)
      | cons c k1' =>
        rw [hk1] at h2b
        simp only [List.cons_append] at h2b
        injection h2b with h3 _
        exact h1o (by rw [hk1, ← h3]; exact List.mem_cons_self _ _)
    | cons y a'' =>
      have he' : x :: (y :: ((a'' ++ placeholderL k) ++ b)) =
          '\x7b' :: ( '\x7b' :: ((k1 ++ [ '\x7d', '\x7d']) ++ t)) := he
      injection he' with h1 h2
      injection h2 with h2a h2b
      have hopen : '\x7b' ∉ k1 ++ [ '\x7d', '\x7d'] := by
        intro hc
        rcases List.mem_append.1 hc with hin | hin
        · exact h1o hin
        · simp at hin
      obtain ⟨a2, _, ht⟩ :=
        occurrence_past_no_open (k1 ++ [ '\x7d', '\x7d']) a''
          ( '\x7b' :: (k ++ [ '\x7d', '\x7d'])) b t hopen h2b
      exact ⟨a2, b, ht⟩

/-- A placeholder of a key foreign to the replacement's key survives the
replacement (the scanner never rewrites any of its characters). -/
theorem infix_replaceAll_preserved (k k1 v1 : List Char) (hne : k ≠ k1)
    (hko : '\x7b' ∉ k) (hkc : '\x7d' ∉ k)
    (h1o : '\x7b' ∉ k1) (h1c : '\x7d' ∉ k1) :
    ∀ (n : Nat) (s : List Char), s.length ≤ n →
      placeholderL k <:+: s →
      placeholderL k <:+:
        replaceAll '\x7b' ( '\x7b' :: (k1 ++ [ '\x7d', '\x7d'])) v1 s := by
  intro n
  induction n with
  | zero =>
    intro s hlen h
    have hs : s = [] := List.length_eq_zero.1 (Nat.le_zero.1 hlen)
    subst hs
    exact h
  | succ n ih =>
    intro s hlen h
    cases s with
    | nil => exact h
    | cons c rest =>
      rcases List.infix_cons_iff.1 h with hpre | hinf
      · obtain ⟨u, hu⟩ := hpre
        rw [← hu]
        rw [replaceAll_placeholder_append k k1 v1 u hne hko hkc h1c]
        exact (List.prefix_append _ _).isInfix
      · rw [replaceAll_cons]
        by_cases hg : ( '\x7b' :: ( '\x7b' :: (k1 ++ [ '\x7d', '\x7d']))).isPrefixOf
            (c :: rest) = true
        · rw [if_pos hg]
          rw [isPrefixOf_iff_isPre] at hg
          obtain ⟨u, hu⟩ := hg
          have hrest : rest = ( '\x7b' :: (k1 ++ [ '\x7d', '\x7d'])) ++ u := by
            injection hu with _ h2
            exact h2.symm
          have hdrop : rest.drop ( '\x7b' :: (k1 ++ [ '\x7d', '\x7d'])).length = u := by
            rw [hrest, List.drop_left]
          rw [hdrop]
          have h' : placeholderL k <:+: placeholderL k1 ++ u := by
            rw [show placeholderL k1 ++ u = c :: rest from hu]
            exact h
          have h2 := infix_drop_placeholder k k1 u hne hkc h1o h1c h'
          have hulen : u.length ≤ n := by
            have h3 : rest.length ≤ n := by simpa using hlen
            rw [hrest, List.length_append] at h3
            omega
          obtain ⟨x, y, hxy⟩ := ih u hulen h2
          exact ⟨v1 ++ x, y, by rw [← hxy]; simp [List.append_assoc]⟩
        · rw [if_neg hg]
          have h3 : rest.length ≤ n := by simpa using hlen
          exact List.infix_cons (ih rest h3 hinf)

/-- Two replacements for distinct well-formed placeholder keys commute
when the replacement texts are non-empty, brace-free, and share no
character with the other key (so no replacement can create or destroy an
occurrence of the other placeholder). -/
theorem replaceAll_comm (k1 v1 k2 v2 : List Char)
    (hne : k1 ≠ k2)
    (h1o : '\x7b' ∉ k1) (h1c : '\x7d' ∉ k1)
    (h2o : '\x7b' ∉ k2) (h2c : '\x7d' ∉ k2)
    (hv1 : v1 ≠ []) (hv2 : v2 ≠ [])
    (hv1o : '\x7b' ∉ v1) (hv1c : '\x7d' ∉ v1)
    (hv2o : '\x7b' ∉ v2) (hv2c : '\x7d' ∉ v2)
    (hd1 : ∀ c ∈ v1, c ∉ k2) (hd2 : ∀ c ∈ v2, c ∉ k1) :
    ∀ (n : Nat) (s : List Char), s.length ≤ n →
      replaceAll '\x7b' ( '\x7b' :: (k1 ++ [ '\x7d', '\x7d'])) v1
          (replaceAll '\x7b' ( '\x7b' :: (k2 ++ [ '\x7d', '\x7d'])) v2 s) =
        replaceAll '\x7b' ( '\x7b' :: (k2 ++ [ '\x7d', '\x7d'])) v2
          (replaceAll '\x7b' ( '\x7b' :: (k1 ++ [ '\x7d', '\x7d'])) v1 s) := by
  intro n
  induction n with
  | zero =>
    intro s hlen
    have hs : s = [] := List.length_eq_zero.1 (Nat.le_zero.1 hlen)
    subst hs
    rfl
  | succ n ih =>
    intro s hlen
    by_cases hg1 : placeholderL k1 <+: s
    · have hg2 : ¬ placeholderL k2 <+: s := fun hp =>
        hne (placeholder_key_unique k1 k2 s h1c h2c hg1 hp)
      obtain ⟨t, ht⟩ := hg1
      have hlt : t.length ≤ n := by
        have hlen' : (placeholderL k1 ++ t).length ≤ n + 1 := by
          rw [ht]; exact hlen
        rw [List.length_append] at hlen'
        simp only [placeholderL, List.length_cons, List.length_append] at hlen'
        omega
      rw [← ht]
      rw [replaceAll_placeholder_append k1 k2 v2 t hne h1o h1c h2c]
      rw [replaceAll_head_match k1 v1
        (replaceAll '\x7b' ( '\x7b' :: (k2 ++ [ '\x7d', '\x7d'])) v2 t)]
      rw [replaceAll_head_match k1 v1 t]
      rw [replaceAll_append_no_open ( '\x7b' :: (k2 ++ [ '\x7d', '\x7d'])) v2 v1
        (replaceAll '\x7b' ( '\x7b' :: (k1 ++ [ '\x7d', '\x7d'])) v1 t) hv1o]
      rw [ih t hlt]
    · by_cases hg2 : placeholderL k2 <+: s
      · obtain ⟨t, ht⟩ := hg2
        have hlt : t.length ≤ n := by
          have hlen' : (placeholderL k2 ++ t).length ≤ n + 1 := by
            rw [ht]; exact hlen
          rw [List.length_append] at hlen'
          simp only [placeholderL, List.length_cons, List.length_append] at hlen'
          omega
        rw [← ht]
        rw [replaceAll_head_match k2 v2 t]
        rw [replaceAll_append_no_open ( '\x7b' :: (k1 ++ [ '\x7d', '\x7d'])) v1 v2
          (replaceAll '\x7b' ( '\x7b' :: (k2 ++ [ '\x7d', '\x7d'])) v2 t) hv2o]
        rw [replaceAll_placeholder_append k2 k1 v1 t (fun h => hne h.symm)
          h2o h2c h1c]
        rw [replaceAll_head_match k2 v2
          (replaceAll '\x7b' ( '\x7b' :: (k1 ++ [ '\x7d', '\x7d'])) v1 t)]
        rw [ih t hlt]
      · cases s with
        | nil => rfl
        | cons c rest =>
          have hrest : rest.length ≤ n := by simpa using hlen
          have r1 : replaceAll '\x7b' ( '\x7b' :: (k1 ++ [ '\x7d', '\x7d'])) v1
              (c :: rest) =
              c :: replaceAll '\x7b' ( '\x7b' :: (k1 ++ [ '\x7d', '\x7d'])) v1
                rest := by
            rw [replaceAll_cons,
              if_neg (by rw [isPrefixOf_iff_isPre]; exact hg1)]
          have r2 : replaceAll '\x7b' ( '\x7b' :: (k2 ++ [ '\x7d', '\x7d'])) v2
              (c :: rest) =
              c :: replaceAll '\x7b' ( '\x7b' :: (k2 ++ [ '\x7d', '\x7d'])) v2
                rest := by
            rw [replaceAll_cons,
              if_neg (by rw [isPrefixOf_iff_isPre]; exact hg2)]
          have st1 : ¬ placeholderL k1 <+:
              (c :: replaceAll '\x7b' ( '\x7b' :: (k2 ++ [ '\x7d', '\x7d'])) v2
                rest) := by
            intro hp
            apply hg1
            simp only [placeholderL, List.cons_prefix_cons] at hp ⊢
            refine ⟨hp.1, ?_⟩
            refine prefix_of_prefix_replaceAll _ v2 hv2 rest.length rest _
              le_rfl ?_ hp.2
            intro ch hch
            rcases List.mem_cons.1 hch with rfl | hch'
            · exact hv2o
            · rcases List.mem_append.1 hch' with hin | hin
              · exact fun hcv => hd2 ch hcv hin
              · have : ch = '\x7d' := by simpa using hin
                rw [this]
                exact hv2c
          have st2 : ¬ placeholderL k2 <+:
              (c :: replaceAll '\x7b' ( '\x7b' :: (k1 ++ [ '\x7d', '\x7d'])) v1
                rest) := by
            intro hp
            apply hg2
            simp only [placeholderL, List.cons_prefix_cons] at hp ⊢
            refine ⟨hp.1, ?_⟩
            refine prefix_of_prefix_replaceAll _ v1 hv1 rest.length rest _
              le_rfl ?_ hp.2
            intro ch hch
            rcases List.mem_cons.1 hch with rfl | hch'
            · exact hv1o
            · rcases List.mem_append.1 hch' with hin | hin
              · exact fun hcv => hd1 ch hcv hin
              · have : ch = '\x7d' := by simpa using hin
                rw [this]
                exact hv1c
          rw [r1, r2]
          have r1' : replaceAll '\x7b' ( '\x7b' :: (k1 ++ [ '\x7d', '\x7d'])) v1
              (c :: replaceAll '\x7b' ( '\x7b' :: (k2 ++ [ '\x7d', '\x7d'])) v2
                rest) =
              c :: replaceAll '\x7b' ( '\x7b' :: (k1 ++ [ '\x7d', '\x7d'])) v1
                (replaceAll '\x7b' ( '\x7b' :: (k2 ++ [ '\x7d', '\x7d'])) v2
                  rest) := by
            rw [replaceAll_cons,
              if_neg (by rw [isPrefixOf_iff_isPre]; exact st1)]
          have r2' : replaceAll '\x7b' ( '\x7b' :: (k2 ++ [ '\x7d', '\x7d'])) v2
              (c :: replaceAll '\x7b' ( '\x7b' :: (k1 ++ [ '\x7d', '\x7d'])) v1
                rest) =
              c :: replaceAll '\x7b' ( '\x7b' :: (k2 ++ [ '\x7d', '\x7d'])) v2
                (replaceAll '\x7b' ( '\x7b' :: (k1 ++ [ '\x7d', '\x7d'])) v1
                  rest) := by
            rw [replaceAll_cons,
              if_neg (by rw [isPrefixOf_iff_isPre]; exact st2)]
          rw [r1', r2', ih rest hrest]

theorem replace_in_paragraph_eq_foldl (values : List (String × String))
    (t : String) :
    replace_in_paragraph values t = values.foldl applyKV t := rfl

/-- The occurrence guard in the loop body is redundant: replacing a
pattern that does not occur is the identity. -/
theorem applyKV_eq_replaceAll (t : String) (kv : String × String) :
    applyKV t kv =
      ⟨replaceAll '\x7b' ( '\x7b' :: (kv.1.data ++ [ '\x7d', '\x7d']))
        kv.2.data t.data⟩ := by
  unfold applyKV
  by_cases hc : containsSub (placeholderL kv.1.data) t.data = true
  · rw [if_pos hc]
  · rw [if_neg hc]
    have hni : ¬ placeholderL kv.1.data <:+: t.data :=
      fun h => hc (containsSub_iff.2 h)
    have hrw : replaceAll '\x7b' ( '\x7b' :: (kv.1.data ++ [ '\x7d', '\x7d']))
        kv.2.data t.data = t.data := replaceAll_eq_self hni
    rw [hrw]

theorem applyKV_comm (x y : String × String) (z : String)
    (hne : x.1 ≠ y.1)
    (hx : ( '\x7b' ∉ x.1.data ∧ '\x7d' ∉ x.1.data) ∧
      (x.2.data ≠ [] ∧ '\x7b' ∉ x.2.data ∧ '\x7d' ∉ x.2.data))
    (hy : ( '\x7b' ∉ y.1.data ∧ '\x7d' ∉ y.1.data) ∧
      (y.2.data ≠ [] ∧ '\x7b' ∉ y.2.data ∧ '\x7d' ∉ y.2.data))
    (hdxy : ∀ c ∈ x.2.data, c ∉ y.1.data)
    (hdyx : ∀ c ∈ y.2.data, c ∉ x.1.data) :
    applyKV (applyKV z x) y = applyKV (applyKV z y) x := by
  rw [applyKV_eq_replaceAll, applyKV_eq_replaceAll, applyKV_eq_replaceAll,
    applyKV_eq_replaceAll]
  show (⟨replaceAll '\x7b' ( '\x7b' :: (y.1.data ++ [ '\x7d', '\x7d']))
      y.2.data
      (replaceAll '\x7b' ( '\x7b' :: (x.1.data ++ [ '\x7d', '\x7d']))
        x.2.data z.data)⟩ : String) =
    ⟨replaceAll '\x7b' ( '\x7b' :: (x.1.data ++ [ '\x7d', '\x7d'])) x.2.data
      (replaceAll '\x7b' ( '\x7b' :: (y.1.data ++ [ '\x7d', '\x7d']))
        y.2.data z.data)⟩
  apply congrArg String.mk
  have hnedata : y.1.data ≠ x.1.data := by
    intro he
    exact hne (String.ext he).symm
  exact replaceAll_comm y.1.data y.2.data x.1.data x.2.data hnedata
    hy.1.1 hy.1.2 hx.1.1 hx.1.2 hy.2.1 hx.2.1 hy.2.2.1 hy.2.2.2
    hx.2.2.1 hx.2.2.2 hdyx hdxy z.data.length z.data le_rfl

theorem replace_in_paragraph_perm (vs1 vs2 : List (String × String))
    (hperm : vs1.Perm vs2) (hgood : goodMapping vs1) (t : String) :
    replace_in_paragraph vs1 t = replace_in_paragraph vs2 t := by
  rw [replace_in_paragraph_eq_foldl, replace_in_paragraph_eq_foldl]
  refine hperm.foldl_eq' ?_ t
  intro x hx y hy z
  by_cases hxy : x = y
  · rw [hxy]
  · have hne : x.1 ≠ y.1 := by
      intro he
      exact hxy (List.inj_on_of_nodup_map hgood.1 hx hy he)
    exact applyKV_comm x y z hne (hgood.2.1 x hx) (hgood.2.1 y hy)
      (hgood.2.2 x hx y hy) (hgood.2.2 y hy x hx)

/-- Per-paragraph preservation of a foreign placeholder through the whole
fold: with brace-free keys, a placeholder whose key is not in the mapping
is still present after substitution. -/
theorem replace_in_paragraph_preserves (k : String)
    (hko : '\x7b' ∉ k.data) (hkc : '\x7d' ∉ k.data) :
    ∀ (values : List (String × String)),
      (∀ kv ∈ values,
        ( '\x7b' ∉ kv.1.data ∧ '\x7d' ∉ kv.1.data) ∧ kv.1 ≠ k) →
      ∀ t : String, placeholderL k.data <:+: t.data →
        placeholderL k.data <:+: (replace_in_paragraph values t).data := by
  intro values
  induction values with
  | nil => intro _ t h; exact h
  | cons kv vs ih =>
    intro hkeys t h
    have hstep : placeholderL k.data <:+: (applyKV t kv).data := by
      unfold applyKV
      by_cases hc : containsSub (placeholderL kv.1.data) t.data = true
      · rw [if_pos hc]
        have hne : k.data ≠ kv.1.data := by
          intro he
          exact (hkeys kv (List.mem_cons_self _ _)).2 (String.ext he.symm)
        exact infix_replaceAll_preserved k.data kv.1.data kv.2.data hne
          hko hkc (hkeys kv (List.mem_cons_self _ _)).1.1
          (hkeys kv (List.mem_cons_self _ _)).1.2
          t.data.length t.data le_rfl h
      · rw [if_neg hc]
        exact h
    have hfold : replace_in_paragraph (kv :: vs) t =
        replace_in_paragraph vs (applyKV t kv) := rfl
    rw [hfold]
    exact ih (fun kw hw => hkeys kw (List.mem_cons_of_mem _ hw)) _ hstep

/-- Mapping a function that fixes every member of a list is the
identity. -/
theorem map_self_of_mem {α : Type} (l : List α) (f : α → α)
    (h : ∀ a ∈ l, f a = a) : l.map f = l := by
  induction l with
  | nil => rfl
  | cons a l ih =>
    rw [List.map_cons, h a (List.mem_cons_self _ _),
      ih (fun b hb => h b (List.mem_cons_of_mem _ hb))]

/-! The claims. -/

/-- C1: for every DOCX template and mapping, fill applies the
per-paragraph substitution (for every key in insertion order, all
occurrences of the literal placeholder replaced by the value) to every
reachable paragraph — body, headers, footers, table cells — and nothing
else; all occurrences of one key are replaced; and the round-trip
template "Hello \x7b\x7bname\x7d\x7d, your id is \x7b\x7bid\x7d\x7d."
with mapping name=Ana, id=42 extracts back as
"Hello Ana, your id is 42.". -/
theorem C1_fill_substitutes_every_reachable_paragraph :
    (∀ (document : Document) (values : List (String × String)),
      reachableParagraphs (fill_template_with_values document values) =
        (reachableParagraphs document).map (replace_in_paragraph values)) ∧
    replace_in_paragraph [("x", "1")]
      "\x7b\x7bx\x7d\x7d and \x7b\x7bx\x7d\x7d" = "1 and 1" ∧
    extract_text true true
      ⟨some (fill_template_with_values
        ⟨["Hello \x7b\x7bname\x7d\x7d, your id is \x7b\x7bid\x7d\x7d."],
          [], []⟩
        [("name", "Ana"), ("id", "42")]), none⟩ "docx" =
      .ok "Hello Ana, your id is 42." :=
  ⟨reachable_fill, by decide, by decide⟩

/-- C2 counterexample: the claim as stated is false: two mappings with
the same key/value pairs in different insertion orders can produce
different paragraph texts — a value containing another key's placeholder
is substituted in one order and left in the other. -/
theorem C2_insertion_order_counterexample :
    ([("a", "\x7b\x7bb\x7d\x7dx"), ("b", "B")] :
        List (String × String)).Perm
      [("b", "B"), ("a", "\x7b\x7bb\x7d\x7dx")] ∧
    reachableParagraphs (fill_template_with_values
        ⟨["\x7b\x7ba\x7d\x7d"], [], []⟩
        [("a", "\x7b\x7bb\x7d\x7dx"), ("b", "B")]) ≠
      reachableParagraphs (fill_template_with_values
        ⟨["\x7b\x7ba\x7d\x7d"], [], []⟩
        [("b", "B"), ("a", "\x7b\x7bb\x7d\x7dx")]) := by
  constructor
  · exact List.Perm.swap ("b", "B") ("a", "\x7b\x7bb\x7d\x7dx") []
  · decide

/-- C2 (amended): the insertion order of the mapping has no effect on
fill provided the mapping is non-interfering: keys pairwise distinct and
brace-free, values non-empty and brace-free, and no character of a value
occurring in any key (`goodMapping`); two such mappings with the same
pairs in different insertion orders produce identical documents. -/
theorem C2_insertion_order_immaterial (document : Document)
    (vs1 vs2 : List (String × String)) (hperm : vs1.Perm vs2)
    (hgood : goodMapping vs1) :
    fill_template_with_values document vs1 =
      fill_template_with_values document vs2 := by
  have hfun : replace_in_paragraph vs1 = replace_in_paragraph vs2 :=
    funext (replace_in_paragraph_perm vs1 vs2 hperm hgood)
  unfold fill_template_with_values replace_in_paragraphs
  rw [hfun]

theorem C2_insertion_order_witness :
    goodMapping [("a", "1"), ("b", "2")] ∧
    fill_template_with_values
        ⟨["Hello \x7b\x7ba\x7d\x7d \x7b\x7bb\x7d\x7d"], [], []⟩
        [("a", "1"), ("b", "2")] =
      fill_template_with_values
        ⟨["Hello \x7b\x7ba\x7d\x7d \x7b\x7bb\x7d\x7d"], [], []⟩
        [("b", "2"), ("a", "1")] :=
  ⟨by decide,
    C2_insertion_order_immaterial
      ⟨["Hello \x7b\x7ba\x7d\x7d \x7b\x7bb\x7d\x7d"], [], []⟩
      [("a", "1"), ("b", "2")] [("b", "2"), ("a", "1")]
      (List.Perm.swap ("b", "2") ("a", "1") []) (by decide)⟩

/-- C3: on a filled output in which no placeholder of any mapping key
remains (the source's own occurrence test reporting false everywhere),
a second fill with the same mapping leaves every reachable paragraph's
text unchanged. -/
theorem C3_fill_idempotent_on_placeholder_free (document : Document)
    (values : List (String × String))
    (h : ∀ t ∈ reachableParagraphs
        (fill_template_with_values document values),
      ∀ kv ∈ values,
        containsSub (placeholderL kv.1.data) t.data = false) :
    reachableParagraphs (fill_template_with_values
        (fill_template_with_values document values) values) =
      reachableParagraphs (fill_template_with_values document values) := by
  rw [reachable_fill]
  refine map_self_of_mem _ _ (fun t ht => ?_)
  refine replace_in_paragraph_of_no_placeholder (fun kv hkv hinf => ?_)
  have h1 := h t ht kv hkv
  have h2 := containsSub_iff.2 hinf
  rw [h1] at h2
  exact Bool.noConfusion h2

theorem C3_idempotence_witness :
    (∀ t ∈ reachableParagraphs (fill_template_with_values
        ⟨["Hello \x7b\x7bname\x7d\x7d"], [], []⟩ [("name", "Ana")]),
      ∀ kv ∈ ([("name", "Ana")] : List (String × String)),
        containsSub (placeholderL kv.1.data) t.data = false) ∧
    reachableParagraphs (fill_template_with_values
        (fill_template_with_values ⟨["Hello \x7b\x7bname\x7d\x7d"], [], []⟩
          [("name", "Ana")]) [("name", "Ana")]) =
      reachableParagraphs (fill_template_with_values
        ⟨["Hello \x7b\x7bname\x7d\x7d"], [], []⟩ [("name", "Ana")]) :=
  ⟨by decide,
    C3_fill_idempotent_on_placeholder_free
      ⟨["Hello \x7b\x7bname\x7d\x7d"], [], []⟩ [("name", "Ana")]
      (by decide)⟩

/-- C4 counterexample: the claim as stated is false: the line "#a:1"
contains a colon and has the non-empty trimmed key "#a", yet parse
ignores it (comment guard) instead of mapping "#a" to "1". -/
theorem C4_comment_line_counterexample :
    ':' ∈ pyStrip "#a:1".data ∧
    ¬ pyStrip (splitFirst ':' (pyStrip "#a:1".data)).1 = [] ∧
    parse_key_values "#a:1" = [] := by
  refine ⟨by decide, by decide, by decide⟩

/-- C4 (amended): for every single-line input (its `splitlines` is the
line itself) that contains a colon, whose trimmed form does not start
with the comment character, and whose trimmed key is non-empty, parse
splits on the first colon only, trims key and value, and maps the key to
the value. -/
theorem C4_single_line_first_colon_split (s : String)
    (hline : pySplitlines s.data [] = [s.data])
    (hcolon : ':' ∈ pyStrip s.data)
    (hhash : ¬ (pyStrip s.data).head? = some '#')
    (hkey : ¬ pyStrip (splitFirst ':' (pyStrip s.data)).1 = []) :
    parse_key_values s =
      [(⟨pyStrip (splitFirst ':' (pyStrip s.data)).1⟩,
        ⟨pyStrip (splitFirst ':' (pyStrip s.data)).2⟩)] := by
  unfold parse_key_values
  rw [hline]
  have hne : ¬ pyStrip s.data = [] := by
    intro h
    rw [h] at hcolon
    simp at hcolon
  simp [hne, hhash, hcolon, hkey, dictInsert]

theorem C4_single_line_witness :
    pySplitlines "key : value with: colon".data [] =
        ["key : value with: colon".data] ∧
    parse_key_values "key : value with: colon" =
      [("key", "value with: colon")] := by
  refine ⟨by decide, ?_⟩
  rw [C4_single_line_first_colon_split "key : value with: colon"
    (by decide) (by decide) (by decide) (by decide)]
  decide

/-- C5: the parser's lookup of any key is the value of the last valid
line carrying that key (and nothing when no valid line does); in
particular parse "a:1\na:2" maps "a" to "2". -/
theorem C5_last_occurrence_wins :
    (∀ (raw_text : String) (k : String),
      dictGet (parse_key_values raw_text) k =
        ((validPairs raw_text).reverse.find?
          (fun p => p.1 = k)).map Prod.snd) ∧
    parse_key_values "a:1\na:2" = [("a", "2")] :=
  ⟨dictGet_parse, by decide⟩

/-- C6: the parser ignores every blank line, comment line, colon-free
line and empty-key line, and returns exactly the dict built from the
remaining valid lines' pairs; in particular parse ": value" is empty. -/
theorem C6_ignores_invalid_lines :
    (∀ raw_text : String,
      parse_key_values raw_text =
        (validPairs raw_text).foldl (fun d p => dictInsert d p.1 p.2) []) ∧
    parse_key_values ": value" = [] :=
  ⟨parse_eq_foldl_validPairs, by decide⟩

/-- C7 counterexample: the claim as stated is false for a mapping key
containing a brace: the paragraph "\x7b\x7bunknown\x7d\x7d\x7d" contains
the placeholder of "unknown", "unknown" is not a key of the mapping
whose only key is "unknown\x7d", and yet fill rewrites the whole
paragraph, destroying the occurrence. -/
theorem C7_braced_key_counterexample :
    containsSub (placeholderL "unknown".data)
        "\x7b\x7bunknown\x7d\x7d\x7d".data = true ∧
    (∀ kv ∈ ([("unknown\x7d", "Z")] : List (String × String)),
      kv.1 ≠ "unknown") ∧
    fill_template_with_values ⟨["\x7b\x7bunknown\x7d\x7d\x7d"], [], []⟩
        [("unknown\x7d", "Z")] = ⟨["Z"], [], []⟩ ∧
    containsSub (placeholderL "unknown".data) "Z".data = false := by
  refine ⟨by decide, by decide, by decide, by decide⟩

/-- C7 (amended): for brace-free keys (well-formed placeholders), a
placeholder whose key is not in the mapping is left verbatim in every
paragraph: if it occurs in a reachable paragraph of the template it
still occurs in the corresponding paragraph after substitution; in
particular the template "\x7b\x7bunknown\x7d\x7d" with mapping
name=Ana is unchanged by fill. -/
theorem C7_unknown_placeholder_left_verbatim :
    (∀ (document : Document) (values : List (String × String)) (k : String),
      '\x7b' ∉ k.data → '\x7d' ∉ k.data →
      (∀ kv ∈ values, '\x7b' ∉ kv.1.data ∧ '\x7d' ∉ kv.1.data) →
      (∀ kv ∈ values, kv.1 ≠ k) →
      ∀ t ∈ reachableParagraphs document,
        containsSub (placeholderL k.data) t.data = true →
        containsSub (placeholderL k.data)
          (replace_in_paragraph values t).data = true) ∧
    fill_template_with_values ⟨["\x7b\x7bunknown\x7d\x7d"], [], []⟩
        [("name", "Ana")] = ⟨["\x7b\x7bunknown\x7d\x7d"], [], []⟩ := by
  constructor
  · intro document values k hko hkc hkeys hnot t _ hocc
    rw [containsSub_iff] at hocc ⊢
    exact replace_in_paragraph_preserves k hko hkc values
      (fun kv hkv => ⟨hkeys kv hkv, hnot kv hkv⟩) t hocc
  · decide

theorem C7_unknown_placeholder_witness :
    containsSub (placeholderL "unknown".data)
      (replace_in_paragraph [("name", "Ana")]
        "\x7b\x7bunknown\x7d\x7d").data = true :=
  C7_unknown_placeholder_left_verbatim.1
    ⟨["\x7b\x7bunknown\x7d\x7d"], [], []⟩ [("name", "Ana")] "unknown"
    (by decide) (by decide) (by decide) (by decide)
    "\x7b\x7bunknown\x7d\x7d" (by decide) (by decide)

/-- C8: extraction from a DOCX buffer returns the body paragraph texts
in document order followed by every table cell's text row-major, empty
strings removed, joined by newline (`docxExtractSpec` is worded from the
specification); in particular one paragraph "A" and a 1x1 table with
cell text "B" extract as "A\nB". -/
theorem C8_docx_extraction :
    (∀ (document : Document) (pdfA : Bool)
        (pages : Option (List (Option String))),
      extract_text true pdfA ⟨some document, pages⟩ "docx" =
        .ok (docxExtractSpec document)) ∧
    extract_text true true
        ⟨some ⟨["A"], [], [⟨[⟨[⟨["B"]⟩]⟩]⟩]⟩, none⟩ "docx" =
      .ok "A\nB" := by
  constructor
  · intro document pdfA pages
    rfl
  · decide

/-- C9: extraction with a kind whose lowercase form is neither "docx"
nor "pdf" fails with the unsupported-format error; matching is
case-insensitive, so "DOCX" and "Pdf" are dispatched to their branches;
in particular "xlsx" is rejected. -/
theorem C9_unsupported_format :
    (∀ (buffer : Buffer) (extension : String) (dA pA : Bool),
      ¬ pyLower extension = "docx" → ¬ pyLower extension = "pdf" →
      extract_text dA pA buffer extension = .error .unsupportedFormat) ∧
    extract_text true true ⟨none, none⟩ "xlsx" =
      .error .unsupportedFormat ∧
    (∀ (document : Document) (pages : Option (List (Option String))),
      extract_text true true ⟨some document, pages⟩ "DOCX" =
        .ok (docxExtractSpec document)) ∧
    extract_text true true ⟨none, some [some "P"]⟩ "Pdf" = .ok "P" := by
  refine ⟨?_, by decide, ?_, by decide⟩
  · intro buffer extension dA pA h1 h2
    simp only [extract_text]
    rw [if_neg h1, if_neg h2]
  · intro document pages
    rfl

theorem C9_unsupported_format_witness :
    extract_text true true ⟨none, none⟩ "xlsx" =
      .error .unsupportedFormat :=
  C9_unsupported_format.1 ⟨none, none⟩ "xlsx" true true
    (by decide) (by decide)

/-- C10: filling with the empty mapping is the identity on the document,
in particular on every reachable paragraph's text. -/
theorem C10_fill_empty_mapping_identity :
    ∀ document : Document,
      fill_template_with_values document [] = document ∧
      reachableParagraphs (fill_template_with_values document []) =
        reachableParagraphs document := by
  intro document
  refine ⟨fill_empty_eq_self document, ?_⟩
  rw [fill_empty_eq_self document]
